/-
Verification of the degree / noise-level bookkeeping core of an FHE
library (shortint ciphertext model, scalar-add dispatch tiers, degree
bound search for bitwise operations, boolean-engine scratch memory and
server-key serialization).

Each Rust function in scope is embedded as an executable Lean definition
translated from the source; parts of the library that the source tree
only calls into (core_crypto primitives, bincode, the lookup-table
engine) are modelled from the specification, and each such definition
says so in its doc comment.

Machine integers are modelled as Nat with explicit reduction modulo
2^64 (u64) where the source wraps.
-/
import Mathlib

namespace Shortint

/-- This tracks the max degree that can be in a Ciphertext
(struct Degree(pub usize)). -/
structure Degree where
  v : Nat
deriving DecidableEq, Repr

/-- This tracks the amount of noise in a ciphertext
(struct NoiseLevel(usize)). -/
structure NoiseLevel where
  v : Nat
deriving DecidableEq, Repr

/-- NoiseLevel::NOMINAL = NoiseLevel(1). -/
def NoiseLevel.NOMINAL : NoiseLevel := ⟨1⟩

/-- NoiseLevel::ZERO = NoiseLevel(0). -/
def NoiseLevel.ZERO : NoiseLevel := ⟨0⟩

/-- impl Add for NoiseLevel: component-wise addition of the counts. -/
def NoiseLevel.add (a b : NoiseLevel) : NoiseLevel := ⟨a.v + b.v⟩

/-- impl Mul<usize> for NoiseLevel: scaling of the count. -/
def NoiseLevel.scale (a : NoiseLevel) (k : Nat) : NoiseLevel := ⟨a.v * k⟩

/-- PBSOrder tag (core_crypto parameter re-exported by the ciphertext
module). -/
inductive PBSOrder where
  | KeyswitchBootstrap
  | BootstrapKeyswitch
deriving DecidableEq, Repr

/-- The running maximum loop body used by all the degree bound searches:
`if f i > result { result = f i }`. -/
def degreeScanStep (f : Nat → Nat) (r i : Nat) : Nat :=
  if f i > r then f i else r

/-- Degree::after_bitxor: start from `max`, scan `i` in `0..min+1` and
keep the largest `max ^ i` seen (translated from the source loop). -/
def Degree.after_bitxor (self other : Degree) : Degree :=
  let mx := max self.v other.v
  let mn := min self.v other.v
  ⟨(List.range (mn + 1)).foldl (degreeScanStep (fun i => mx ^^^ i)) mx⟩

/-- Degree::after_bitor: same scan with bitwise or. -/
def Degree.after_bitor (self other : Degree) : Degree :=
  let mx := max self.v other.v
  let mn := min self.v other.v
  ⟨(List.range (mn + 1)).foldl (degreeScanStep (fun i => mx ||| i)) mx⟩

/-- Degree::after_bitand: `Degree(cmp::min(self.0, other.0))`. -/
def Degree.after_bitand (self other : Degree) : Degree :=
  ⟨min self.v other.v⟩

/-- Degree::after_left_shift: scan `i` in `0..self.0+1`, keep the largest
`(i << shift) % modulus` (translated from the source loop; the result
accumulator starts at 0). -/
def Degree.after_left_shift (self : Degree) (shift : Nat) (modulus : Nat) :
    Degree :=
  ⟨(List.range (self.v + 1)).foldl
      (degreeScanStep (fun i => (i <<< shift) % modulus)) 0⟩

/-- The brute-force worst case the spec describes for the xor degree
bound: the maximum of `x ^ y` over all plaintext pairs `0 ≤ x ≤ a`,
`0 ≤ y ≤ b`. -/
def bruteMaxXor (a b : Nat) : Nat :=
  Finset.sup (Finset.range (a + 1) ×ˢ Finset.range (b + 1))
    fun p => p.1 ^^^ p.2

/-- The brute-force worst case for the or degree bound: the maximum of
`x | y` over all plaintext pairs `0 ≤ x ≤ a`, `0 ≤ y ≤ b`. -/
def bruteMaxOr (a b : Nat) : Nat :=
  Finset.sup (Finset.range (a + 1) ×ˢ Finset.range (b + 1))
    fun p => p.1 ||| p.2

/-- The u64 ciphertext modulus (native word size). -/
def U64MOD : Nat := 2 ^ 64

/-- An owned LWE ciphertext over u64: a mask of scalar coefficients plus
one body scalar (LweCiphertextOwned<u64>); every coefficient is kept
reduced modulo 2^64. -/
structure LweRaw where
  mask : List Nat
  body : Nat
deriving DecidableEq, Repr

/-- shortint Ciphertext: the raw LWE sample plus degree / noise-level
bookkeeping and the two plaintext-space moduli and the PBS-order tag. -/
structure Ciphertext where
  ct : LweRaw
  degree : Degree
  noise_level : NoiseLevel
  message_modulus : Nat
  carry_modulus : Nat
  pbs_order : PBSOrder
deriving DecidableEq, Repr

/-- Ciphertext::carry_is_empty: `self.degree.0 < self.message_modulus.0`. -/
def Ciphertext.carry_is_empty (self : Ciphertext) : Bool :=
  self.degree.v < self.message_modulus

/-- The part of the shortint ServerKey read by the scalar-add engine
path: the two plaintext-space moduli. -/
structure ServerKey where
  message_modulus : Nat
  carry_modulus : Nat
deriving DecidableEq, Repr

/-- Modelled from the spec: core_crypto's
lwe_ciphertext_plaintext_add_assign (not part of the source tree) adds
an encoded plaintext to the body of the LWE ciphertext, wrapping at the
u64 modulus; the mask is untouched. -/
def lwe_ciphertext_plaintext_add_assign (ct : LweRaw) (p : Nat) : LweRaw :=
  { mask := ct.mask, body := (ct.body + p) % U64MOD }

/-- ShortintEngine::unchecked_scalar_add_assign: compute
`delta = (1 << 63) / (message_modulus * carry_modulus)`, shift the body
by `scalar * delta`, and set `degree = Degree(ct.degree.0 + scalar)`
(translated from the source; `scalar` models the u8 argument). -/
def unchecked_scalar_add_assign (server_key : ServerKey) (ct : Ciphertext)
    (scalar : Nat) : Ciphertext :=
  let delta := 2 ^ 63 / (server_key.message_modulus * server_key.carry_modulus)
  let shift_plaintext := scalar * delta
  { ct with
    ct := lwe_ciphertext_plaintext_add_assign ct.ct shift_plaintext
    degree := ⟨ct.degree.v + scalar⟩ }

/-- ShortintEngine::unchecked_scalar_add: clone then assign. -/
def unchecked_scalar_add (server_key : ServerKey) (ct : Ciphertext)
    (scalar : Nat) : Ciphertext :=
  unchecked_scalar_add_assign server_key ct scalar

/-- Modelled from the spec: the deterministic decompression of a seeded
LWE ciphertext (core_crypto's decompress_into_lwe_ciphertext, not part
of the source tree).  The seeded form stores the seed and the body; the
mask is re-generated deterministically from the seed.  The generator is
abstracted as a fixed deterministic pseudo-random map of the seed and
the coefficient index. -/
structure SeededLweRaw where
  seed : Nat
  lwe_dimension : Nat
  body : Nat
deriving DecidableEq, Repr

/-- Modelled from the spec: deterministic mask re-generation from the
seed (stands for the seeded generator used by core_crypto). -/
def seededMaskCoeff (seed i : Nat) : Nat := (seed + 6364136223846793005 * i) % U64MOD

/-- Modelled from the spec: SeededLweCiphertext::decompress_into_lwe_ciphertext. -/
def SeededLweRaw.decompress_into_lwe_ciphertext (s : SeededLweRaw) : LweRaw :=
  { mask := (List.range s.lwe_dimension).map (seededMaskCoeff s.seed)
    body := s.body % U64MOD }

/-- shortint CompressedCiphertext (seeded single ciphertext plus the
same metadata fields as Ciphertext). -/
structure CompressedCiphertext where
  ct : SeededLweRaw
  degree : Degree
  message_modulus : Nat
  carry_modulus : Nat
  pbs_order : PBSOrder
  noise_level : NoiseLevel
deriving DecidableEq, Repr

/-- CompressedCiphertext::decompress: decompress the seeded LWE sample
and move every metadata field across unchanged (translated from the
source destructuring). -/
def CompressedCiphertext.decompress (self : CompressedCiphertext) : Ciphertext :=
  { ct := self.ct.decompress_into_lwe_ciphertext
    degree := self.degree
    message_modulus := self.message_modulus
    carry_modulus := self.carry_modulus
    pbs_order := self.pbs_order
    noise_level := self.noise_level }

/-- The compact LWE ciphertext list payload: one shared buffer plus the
declared LWE size and ciphertext count (LweCompactCiphertextListOwned<u64>). -/
structure LweCompactListRaw where
  data : List Nat
  lwe_size : Nat
  count : Nat
deriving DecidableEq, Repr

/-- shortint CompactCiphertextList: the compact payload plus one shared
copy of the metadata fields. -/
structure CompactCiphertextList where
  ct_list : LweCompactListRaw
  degree : Degree
  message_modulus : Nat
  carry_modulus : Nat
  pbs_order : PBSOrder
  noise_level : NoiseLevel
deriving DecidableEq, Repr

/-- Modelled from the spec: core_crypto's
par_expand_lwe_compact_ciphertext_list (not part of the source tree)
writes the expansion into an output LweCiphertextList allocated with
exactly `lwe_size * count` zeroed elements; the expansion is a
deterministic function of the compact data. -/
def par_expand_lwe_compact_ciphertext_list (l : LweCompactListRaw) : List Nat :=
  (l.data ++ List.replicate (l.lwe_size * l.count) 0).take (l.lwe_size * l.count)

/-- chunks_exact(k): split a list into consecutive chunks of size k,
dropping any remainder (Rust slice::chunks_exact; k = 0 is never used). -/
def chunksExact (k : Nat) (l : List Nat) : List (List Nat) :=
  if _h : k ≠ 0 ∧ k ≤ l.length then
    l.take k :: chunksExact k (l.drop k)
  else []
termination_by l.length
decreasing_by
  simp only [List.length_drop]
  omega

/-- CompactCiphertextList::expand: expand the compact list into one
buffer, then stamp out one Ciphertext per LWE-sized chunk, each carrying
the shared metadata (translated from the source). -/
def CompactCiphertextList.expand (self : CompactCiphertextList) :
    List Ciphertext :=
  let expanded := par_expand_lwe_compact_ciphertext_list self.ct_list
  (chunksExact self.ct_list.lwe_size expanded).map fun lwe_data =>
    { ct := { mask := lwe_data.dropLast, body := lwe_data.getLastD 0 }
      degree := self.degree
      message_modulus := self.message_modulus
      carry_modulus := self.carry_modulus
      pbs_order := self.pbs_order
      noise_level := self.noise_level }

/-! ## Plaintext-level (semantic) model of the dispatch-layer operations

The server-key operations below (`unchecked_add`, `unchecked_sub`,
`unchecked_mul_lsb`, `unchecked_mul_msb`, `apply_lookup_table`,
`is_scalar_add_possible`) are implemented outside the source tree (only
their noise-propagation tests and the scalar-add engine path are in it),
so they are modelled from the spec at the level of decoded plaintexts:
a ciphertext is its decoded plaintext plus the degree / noise-level
bookkeeping. -/

namespace Sem

/-- Semantic shortint ciphertext: the decoded plaintext (an integer of
the plaintext space `[0, message_modulus*carry_modulus)`) together with
the bookkeeping fields. -/
structure Ct where
  plain : Nat
  degree : Degree
  noise_level : NoiseLevel
  message_modulus : Nat
  carry_modulus : Nat
deriving DecidableEq, Repr

/-- A lookup table: the function it evaluates during the programmable
bootstrap (built once by generate_lookup_table). -/
structure LookupTable where
  f : Nat → Nat

/-- ShortintEngine::generate_lookup_table, as consumed here: records the
requested function. -/
def generate_lookup_table (f : Nat → Nat) : LookupTable := ⟨f⟩

/-- Modelled from the spec: apply_lookup_table (a programmable
bootstrap) evaluates the table on the decoded plaintext (reduced into
the plaintext space), re-encodes at `degree = message_modulus - 1` and
resets `noise_level` to NOMINAL. -/
def apply_lookup_table (ct : Ct) (acc : LookupTable) : Ct :=
  { ct with
    plain := acc.f ct.plain % (ct.message_modulus * ct.carry_modulus)
    degree := ⟨ct.message_modulus - 1⟩
    noise_level := NoiseLevel.NOMINAL }

/-- Modelled from the spec: unchecked ciphertext addition adds the
plaintexts and the degrees, and adds the noise levels
(`noise_level(a) + noise_level(b)`). -/
def unchecked_add (a b : Ct) : Ct :=
  { a with
    plain := a.plain + b.plain
    degree := ⟨a.degree.v + b.degree.v⟩
    noise_level := a.noise_level.add b.noise_level }

/-- Modelled from the spec: unchecked ciphertext subtraction adds the
negation with its correcting term (a multiple of the message modulus at
least the subtrahend degree); its noise level is also the sum
`noise_level(a) + noise_level(b)`. -/
def unchecked_sub (a b : Ct) : Ct :=
  let z := a.message_modulus * (b.degree.v / a.message_modulus + 1)
  { a with
    plain := a.plain + z - b.plain
    degree := ⟨a.degree.v + z⟩
    noise_level := a.noise_level.add b.noise_level }

/-- Modelled from the spec: unchecked_mul_lsb keeps the low (message)
part of the product, which is computed through an embedded bivariate
bootstrap, so the noise level resets to NOMINAL - except when one
operand is statically trivial (degree 0), in which case no bootstrap is
needed and the noise level becomes ZERO. -/
def unchecked_mul_lsb (a b : Ct) : Ct :=
  { a with
    plain := a.plain * b.plain % a.message_modulus
    degree := ⟨a.message_modulus - 1⟩
    noise_level :=
      if a.degree.v = 0 ∨ b.degree.v = 0 then NoiseLevel.ZERO
      else NoiseLevel.NOMINAL }

/-- Modelled from the spec: unchecked_mul_msb keeps the high (carry)
part of the product; same noise behaviour as unchecked_mul_lsb. -/
def unchecked_mul_msb (a b : Ct) : Ct :=
  { a with
    plain := a.plain * b.plain / a.message_modulus % a.message_modulus
    degree := ⟨a.message_modulus - 1⟩
    noise_level :=
      if a.degree.v = 0 ∨ b.degree.v = 0 then NoiseLevel.ZERO
      else NoiseLevel.NOMINAL }

/-- Modelled from the spec: the checked-tier safety predicate for scalar
add - the result degree must stay within `[0, message_modulus*carry_modulus)`
(scalar add leaves the noise level unchanged, so only the degree is
constrained). -/
def is_scalar_add_possible (server_key : ServerKey) (ct : Ct) (scalar : Nat) :
    Bool :=
  ct.degree.v + scalar < server_key.message_modulus * server_key.carry_modulus

/-- The semantic shadow of ShortintEngine::unchecked_scalar_add_assign:
the body shift adds `scalar` to the decoded plaintext, the degree grows
by `scalar`, the noise level is untouched. -/
def unchecked_scalar_add_assign (ct : Ct) (scalar : Nat) : Ct :=
  { ct with
    plain := ct.plain + scalar
    degree := ⟨ct.degree.v + scalar⟩ }

/-- ShortintEngine::smart_scalar_add_assign (translated from the
source): if the direct path is safe, delegate to the unchecked path;
otherwise apply the lookup table `x ↦ (scalar + x) % message_modulus`
through the bootstrap engine and set `degree = message_modulus - 1`. -/
def smart_scalar_add_assign (server_key : ServerKey) (ct : Ct) (scalar : Nat) :
    Ct :=
  let modulus := server_key.message_modulus
  if is_scalar_add_possible server_key ct scalar then
    unchecked_scalar_add_assign ct scalar
  else
    let acc := generate_lookup_table (fun x => (scalar + x) % modulus)
    let after := apply_lookup_table ct acc
    { after with degree := ⟨server_key.message_modulus - 1⟩ }

/-- The behaviour the claim attributes to the unsafe branch of
smart_scalar_add (written from the spec sentence, for comparison with
the translated definition): one refresh that re-encodes the same
logical value at `degree = message_modulus - 1` and NOMINAL noise,
followed by a retry of the unchecked scalar add. -/
def smart_scalar_add_claimed (server_key : ServerKey) (ct : Ct) (scalar : Nat) :
    Ct :=
  if is_scalar_add_possible server_key ct scalar then
    unchecked_scalar_add_assign ct scalar
  else
    let refreshed : Ct :=
      { ct with
        plain := ct.plain % ct.message_modulus
        degree := ⟨server_key.message_modulus - 1⟩
        noise_level := NoiseLevel.NOMINAL }
    unchecked_scalar_add_assign refreshed scalar

end Sem

end Shortint

namespace TfheBoolean

/-- The boolean engine's plaintext encoding of logical true
(PLAINTEXT_TRUE, an eighth of the u32 torus). -/
def PLAINTEXT_TRUE : Nat := 2 ^ 29

/-- The dimensions and payload of the Fourier-domain bootstrapping key
(FourierLweBootstrapKeyOwned). -/
structure FourierBsk where
  input_lwe_dimension : Nat
  glwe_size : Nat
  polynomial_size : Nat
  decomposition_base_log : Nat
  decomposition_level_count : Nat
  data : List Nat
deriving DecidableEq, Repr

/-- FourierLweBootstrapKey::output_lwe_dimension: the equivalent LWE
dimension of the GLWE output, `(glwe_size - 1) * polynomial_size`. -/
def FourierBsk.output_lwe_dimension (k : FourierBsk) : Nat :=
  (k.glwe_size - 1) * k.polynomial_size

/-- The keyswitching key (LweKeyswitchKeyOwned<u32>). -/
structure Ksk where
  decomposition_base_log : Nat
  decomposition_level_count : Nat
  data : List Nat
deriving DecidableEq, Repr

/-- boolean ServerKey: the Fourier bootstrapping key and the
keyswitching key. -/
structure ServerKey where
  bootstrapping_key : FourierBsk
  key_switching_key : Ksk
deriving DecidableEq, Repr

/-- Memory: the reusable contiguous u32 buffer of the boolean engine. -/
structure Memory where
  buffer : List Nat
deriving DecidableEq, Repr

/-- The Vec::resize step of Memory::as_buffers: grow the backing buffer
with zeros when it is smaller than the needed element count, never
shrink. -/
def Memory.grownBuffer (self : Memory) (total_elem_needed : Nat) : List Nat :=
  if self.buffer.length < total_elem_needed then
    self.buffer ++ List.replicate (total_elem_needed - self.buffer.length) 0
  else self.buffer

/-- Memory::as_buffers (translated from the source): compute the
accumulator and LWE element counts from the bootstrapping key's
dimensions, grow the backing buffer, fill the accumulator slice's
mask with zeros and its body with PLAINTEXT_TRUE, and return the
mutated memory together with the accumulator view (first slice) and
the LWE output view (second slice). -/
def Memory.as_buffers (self : Memory) (server_key : ServerKey) :
    Memory × List Nat × List Nat :=
  let num_elem_in_accumulator :=
    server_key.bootstrapping_key.glwe_size *
      server_key.bootstrapping_key.polynomial_size
  let num_elem_in_lwe := server_key.bootstrapping_key.output_lwe_dimension + 1
  let total_elem_needed := num_elem_in_accumulator + num_elem_in_lwe
  let grown := self.grownBuffer total_elem_needed
  let accumulator :=
    List.replicate
        ((server_key.bootstrapping_key.glwe_size - 1) *
          server_key.bootstrapping_key.polynomial_size) 0 ++
      List.replicate server_key.bootstrapping_key.polynomial_size
        PLAINTEXT_TRUE
  let buffer2 := accumulator ++ grown.drop num_elem_in_accumulator
  let lwe := (grown.drop num_elem_in_accumulator).take num_elem_in_lwe
  (⟨buffer2⟩, accumulator, lwe)

/-- Modelled from the spec: the opaque byte encoding (bincode) of the
Fourier bootstrapping key - a header of the five declared dimensions
and the payload length, then the payload.  The decoder rejects any
blob whose length does not match its header. -/
def FourierBsk.bincode_serialize (k : FourierBsk) : List Nat :=
  [k.input_lwe_dimension, k.glwe_size, k.polynomial_size,
    k.decomposition_base_log, k.decomposition_level_count, k.data.length] ++
    k.data

/-- Modelled from the spec: bincode decoding of a Fourier bootstrapping
key blob; structured failure (none) on truncation or length mismatch. -/
def FourierBsk.bincode_deserialize (bs : List Nat) : Option FourierBsk :=
  match bs with
  | a :: b :: c :: d :: e :: n :: rest =>
    if rest.length = n then
      some ⟨a, b, c, d, e, rest⟩
    else none
  | _ => none

/-- Modelled from the spec: the opaque byte encoding (bincode) of the
keyswitching key. -/
def Ksk.bincode_serialize (k : Ksk) : List Nat :=
  [k.decomposition_base_log, k.decomposition_level_count, k.data.length] ++
    k.data

/-- Modelled from the spec: bincode decoding of a keyswitching key
blob. -/
def Ksk.bincode_deserialize (bs : List Nat) : Option Ksk :=
  match bs with
  | a :: b :: n :: rest =>
    if rest.length = n then
      some ⟨a, b, rest⟩
    else none
  | _ => none

/-- The wrapper record of the two independently encoded sub-keys
(SerializableServerKey). -/
structure SerializableServerKey where
  bootstrapping_key : List Nat
  key_switching_key : List Nat
deriving DecidableEq, Repr

/-- Modelled from the spec: the outer serde encoding of the wrapper
record - two length-prefixed blobs in field order. -/
def SerializableServerKey.encode (s : SerializableServerKey) : List Nat :=
  s.bootstrapping_key.length :: s.bootstrapping_key ++
    (s.key_switching_key.length :: s.key_switching_key)

/-- Read one length-prefixed blob; fails on truncation. -/
def readBlob (bs : List Nat) : Option (List Nat × List Nat) :=
  match bs with
  | [] => none
  | n :: rest => if n ≤ rest.length then some (rest.take n, rest.drop n) else none

/-- Modelled from the spec: the outer serde decoding of the wrapper
record; rejects truncated input and trailing garbage. -/
def SerializableServerKey.decode (bs : List Nat) :
    Option SerializableServerKey :=
  match readBlob bs with
  | none => none
  | some p1 =>
    match readBlob p1.2 with
    | none => none
    | some p2 => if p2.2 = [] then some ⟨p1.1, p2.1⟩ else none

/-- ServerKey serialization (translated from the source impl): encode
each sub-key independently with bincode and wrap the two blobs. -/
def ServerKey.serialize (self : ServerKey) : List Nat :=
  SerializableServerKey.encode
    { bootstrapping_key := self.bootstrapping_key.bincode_serialize
      key_switching_key := self.key_switching_key.bincode_serialize }

/-- ServerKey deserialization (translated from the source impl): decode
the wrapper, then each sub-key blob; every failure is surfaced as a
structured decoding error. -/
def ServerKey.deserialize (bs : List Nat) : Except String ServerKey :=
  match SerializableServerKey.decode bs with
  | none => Except.error "invalid SerializableServerKey"
  | some thing =>
    match Ksk.bincode_deserialize thing.key_switching_key with
    | none => Except.error "invalid key switching key"
    | some key_switching_key =>
      match FourierBsk.bincode_deserialize thing.bootstrapping_key with
      | none => Except.error "invalid bootstrapping key"
      | some bootstrapping_key =>
        Except.ok ⟨bootstrapping_key, key_switching_key⟩

end TfheBoolean

/-! ## Helper lemmas -/

namespace Shortint

/-- The scan step keeps the running maximum. -/
lemma degreeScanStep_eq_max (f : Nat → Nat) (r i : Nat) :
    degreeScanStep f r i = max r (f i) := by
  unfold degreeScanStep
  rcases Nat.lt_or_ge r (f i) with h | h
  · rw [if_pos h, Nat.max_eq_right (Nat.le_of_lt h)]
  · rw [if_neg (Nat.not_lt.mpr h), Nat.max_eq_left h]

/-- The source's running-maximum loop computes the max of the start
value and the supremum of `f` over the scanned range. -/
lemma foldl_scan_eq (f : Nat → Nat) (a n : Nat) :
    (List.range n).foldl (degreeScanStep f) a =
      max a ((Finset.range n).sup f) := by
  induction n generalizing a with
  | zero => simp
  | succ n ih =>
    rw [List.range_succ, List.foldl_append, List.foldl_cons, List.foldl_nil,
      ih, degreeScanStep_eq_max, Finset.range_succ, Finset.sup_insert]
    have h1 : (Finset.range n).sup f ⊔ f n = max ((Finset.range n).sup f) (f n) := rfl
    omega

/-- Any bit at or above the width of a number is clear. -/
lemma testBit_false_of_lt_pow {u k i : Nat} (hu : u < 2 ^ k) (hik : k ≤ i) :
    u.testBit i = false :=
  Nat.testBit_lt_two_pow
    (Nat.lt_of_lt_of_le hu (Nat.pow_le_pow_right (by norm_num) hik))

/-- Xor of two k-bit numbers is a k-bit number. -/
lemma xor_lt_pow {u v k : Nat} (hu : u < 2 ^ k) (hv : v < 2 ^ k) :
    u ^^^ v < 2 ^ k := by
  apply Nat.lt_pow_two_of_testBit
  intro i hik
  simp [Nat.testBit_xor, testBit_false_of_lt_pow hu hik,
    testBit_false_of_lt_pow hv hik]

/-- Or of two k-bit numbers is a k-bit number. -/
lemma or_lt_pow {u v k : Nat} (hu : u < 2 ^ k) (hv : v < 2 ^ k) :
    u ||| v < 2 ^ k := by
  apply Nat.lt_pow_two_of_testBit
  intro i hik
  simp [Nat.testBit_or, testBit_false_of_lt_pow hu hik,
    testBit_false_of_lt_pow hv hik]

/-- Setting the k-th bit above a k-bit number is xor with it. -/
lemma two_pow_add_eq_xor {u k : Nat} (hu : u < 2 ^ k) :
    2 ^ k + u = 2 ^ k ^^^ u := by
  apply Nat.eq_of_testBit_eq
  intro i
  rcases Nat.lt_trichotomy i k with hik | hik | hik
  · rw [Nat.testBit_two_pow_add_gt hik]
    simp [Nat.testBit_xor, Nat.testBit_two_pow_of_ne (Nat.ne_of_gt hik)]
  · subst hik
    rw [Nat.testBit_two_pow_add_eq]
    simp [Nat.testBit_xor, Nat.testBit_two_pow_self,
      testBit_false_of_lt_pow hu (Nat.le_refl i)]
  · have hlt : 2 ^ k + u < 2 ^ i := by
      have h1 : 2 ^ (k + 1) ≤ 2 ^ i := Nat.pow_le_pow_right (by norm_num) hik
      have h2 : (2 : Nat) ^ (k + 1) = 2 ^ k + 2 ^ k := by
        rw [Nat.pow_succ]; omega
      omega
    rw [Nat.testBit_lt_two_pow hlt]
    simp [Nat.testBit_xor, Nat.testBit_two_pow_of_ne (Nat.ne_of_lt hik),
      testBit_false_of_lt_pow hu (Nat.le_of_lt hik)]

/-- Setting the k-th bit above a k-bit number is or with it. -/
lemma two_pow_add_eq_or {u k : Nat} (hu : u < 2 ^ k) :
    2 ^ k + u = 2 ^ k ||| u := by
  apply Nat.eq_of_testBit_eq
  intro i
  rcases Nat.lt_trichotomy i k with hik | hik | hik
  · rw [Nat.testBit_two_pow_add_gt hik]
    simp [Nat.testBit_or, Nat.testBit_two_pow_of_ne (Nat.ne_of_gt hik)]
  · subst hik
    rw [Nat.testBit_two_pow_add_eq]
    simp [Nat.testBit_or, Nat.testBit_two_pow_self,
      testBit_false_of_lt_pow hu (Nat.le_refl i)]
  · have hlt : 2 ^ k + u < 2 ^ i := by
      have h1 : 2 ^ (k + 1) ≤ 2 ^ i := Nat.pow_le_pow_right (by norm_num) hik
      have h2 : (2 : Nat) ^ (k + 1) = 2 ^ k + 2 ^ k := by
        rw [Nat.pow_succ]; omega
      omega
    rw [Nat.testBit_lt_two_pow hlt]
    simp [Nat.testBit_or, Nat.testBit_two_pow_of_ne (Nat.ne_of_lt hik),
      testBit_false_of_lt_pow hu (Nat.le_of_lt hik)]

/-- Xor of a number with its k-th bit set and a k-bit number. -/
lemma add_xor_high {u v k : Nat} (hu : u < 2 ^ k) (hv : v < 2 ^ k) :
    (2 ^ k + u) ^^^ v = 2 ^ k + (u ^^^ v) := by
  rw [two_pow_add_eq_xor hu, Nat.xor_assoc,
    ← two_pow_add_eq_xor (xor_lt_pow hu hv)]

/-- Xor of two numbers with the k-th bit set clears that bit. -/
lemma xor_high_high {u v k : Nat} (hu : u < 2 ^ k) (hv : v < 2 ^ k) :
    (2 ^ k + u) ^^^ (2 ^ k + v) = u ^^^ v := by
  rw [two_pow_add_eq_xor hu, two_pow_add_eq_xor hv]
  rw [Nat.xor_comm (2 ^ k) u, Nat.xor_assoc, Nat.xor_cancel_left]

/-- Or of a number with its k-th bit set and a k-bit number. -/
lemma add_or_high {u v k : Nat} (hu : u < 2 ^ k) (hv : v < 2 ^ k) :
    (2 ^ k + u) ||| v = 2 ^ k + (u ||| v) := by
  rw [two_pow_add_eq_or hu, Nat.or_assoc,
    ← two_pow_add_eq_or (or_lt_pow hu hv)]

/-- Or of two numbers with the k-th bit set keeps that bit once. -/
lemma or_high_high {u v k : Nat} (hu : u < 2 ^ k) (hv : v < 2 ^ k) :
    (2 ^ k + u) ||| (2 ^ k + v) = 2 ^ k + (u ||| v) := by
  rw [two_pow_add_eq_or hu, two_pow_add_eq_or hv,
    two_pow_add_eq_or (or_lt_pow hu hv)]
  apply Nat.eq_of_testBit_eq
  intro i
  simp only [Nat.testBit_or]
  cases Nat.testBit (2 ^ k) i <;> cases u.testBit i <;> cases v.testBit i <;> rfl

/-- A number is bounded by its or with anything (left). -/
lemma le_or_left (a b : Nat) : a ≤ a ||| b :=
  Nat.le_of_testBit fun i h => by simp [Nat.testBit_or, h]

/-- A number is bounded by its or with anything (right). -/
lemma le_or_right (a b : Nat) : b ≤ a ||| b :=
  Nat.le_of_testBit fun i h => by simp [Nat.testBit_or, h]

end Shortint

namespace Shortint

/-- Commuted form of add_xor_high. -/
lemma xor_add_high {u v k : Nat} (hu : u < 2 ^ k) (hv : v < 2 ^ k) :
    u ^^^ (2 ^ k + v) = 2 ^ k + (u ^^^ v) := by
  rw [Nat.xor_comm, add_xor_high hv hu, Nat.xor_comm v u]

/-- Commuted form of add_or_high. -/
lemma or_add_high {u v k : Nat} (hu : u < 2 ^ k) (hv : v < 2 ^ k) :
    u ||| (2 ^ k + v) = 2 ^ k + (u ||| v) := by
  rw [Nat.or_comm, add_or_high hv hu, Nat.or_comm v u]

/-- Key bound behind the xor degree scan: every pair xor `x ^ y` with
`x ≤ A`, `y ≤ B` is dominated by `A ^ i` for some `i ≤ B` - fixing the
first operand at its bound loses nothing. -/
lemma pair_xor_le_scan :
    ∀ (k A B x y : Nat), A < 2 ^ k → B < 2 ^ k → x ≤ A → y ≤ B →
      ∃ i, i ≤ B ∧ x ^^^ y ≤ A ^^^ i := by
  intro k
  induction k with
  | zero =>
    intro A B x y hA hB hx hy
    have hA0 : A = 0 := by simp at hA; omega
    have hx0 : x = 0 := by omega
    have hy0 : y = 0 := by simp at hB; omega
    subst hA0; subst hx0; subst hy0
    exact ⟨0, Nat.zero_le B, Nat.le_refl _⟩
  | succ k ih =>
    intro A B x y hA hB hx hy
    have hsplit : (2 : Nat) ^ (k + 1) = 2 ^ k + 2 ^ k := by
      rw [Nat.pow_succ]; omega
    by_cases hAP : A < 2 ^ k
    · by_cases hBP : B < 2 ^ k
      · exact ih A B x y hAP hBP hx hy
      · push_neg at hBP
        by_cases hyP : y < 2 ^ k
        · -- exact hit: A ^ (A ^ (x ^ y)) = x ^ y, and the index fits below B
          have hxP : x < 2 ^ k := Nat.lt_of_le_of_lt hx hAP
          refine ⟨A ^^^ (x ^^^ y), ?_, ?_⟩
          · have h1 : A ^^^ (x ^^^ y) < 2 ^ k :=
              xor_lt_pow hAP (xor_lt_pow hxP hyP)
            omega
          · rw [Nat.xor_cancel_left]
        · push_neg at hyP
          obtain ⟨y0, rfl⟩ : ∃ y0, y = 2 ^ k + y0 := ⟨y - 2 ^ k, by omega⟩
          have hy0P : y0 < 2 ^ k := by omega
          have hB0P : B - 2 ^ k < 2 ^ k := by omega
          obtain ⟨i0, hi0le, hi0⟩ :=
            ih A (B - 2 ^ k) x y0 hAP hB0P hx (by omega)
          have hxP : x < 2 ^ k := Nat.lt_of_le_of_lt hx hAP
          have hi0P : i0 < 2 ^ k := Nat.lt_of_le_of_lt hi0le hB0P
          refine ⟨2 ^ k + i0, by omega, ?_⟩
          rw [xor_add_high hxP hy0P, xor_add_high hAP hi0P]
          omega
    · push_neg at hAP
      obtain ⟨A0, rfl⟩ : ∃ A0, A = 2 ^ k + A0 := ⟨A - 2 ^ k, by omega⟩
      have hA0P : A0 < 2 ^ k := by omega
      by_cases hBP : B < 2 ^ k
      · have hyP : y < 2 ^ k := Nat.lt_of_le_of_lt hy hBP
        by_cases hxP : x < 2 ^ k
        · refine ⟨0, Nat.zero_le B, ?_⟩
          have h1 : x ^^^ y < 2 ^ k := xor_lt_pow hxP hyP
          rw [Nat.xor_zero]; omega
        · push_neg at hxP
          obtain ⟨x0, rfl⟩ : ∃ x0, x = 2 ^ k + x0 := ⟨x - 2 ^ k, by omega⟩
          have hx0P : x0 < 2 ^ k := by omega
          obtain ⟨i, hile, hi⟩ :=
            ih A0 B x0 y hA0P hBP (by omega) hy
          have hiP : i < 2 ^ k := Nat.lt_of_le_of_lt hile hBP
          refine ⟨i, hile, ?_⟩
          rw [add_xor_high hx0P hyP, add_xor_high hA0P hiP]
          omega
      · push_neg at hBP
        by_cases hxP : x < 2 ^ k
        · by_cases hyP : y < 2 ^ k
          · refine ⟨0, Nat.zero_le B, ?_⟩
            have h1 : x ^^^ y < 2 ^ k := xor_lt_pow hxP hyP
            rw [Nat.xor_zero]; omega
          · push_neg at hyP
            obtain ⟨y0, rfl⟩ : ∃ y0, y = 2 ^ k + y0 := ⟨y - 2 ^ k, by omega⟩
            have hy0P : y0 < 2 ^ k := by omega
            have htP : x ^^^ y0 < 2 ^ k := xor_lt_pow hxP hy0P
            refine ⟨A0 ^^^ (x ^^^ y0), ?_, ?_⟩
            · have h1 : A0 ^^^ (x ^^^ y0) < 2 ^ k := xor_lt_pow hA0P htP
              omega
            · rw [xor_add_high hxP hy0P,
                add_xor_high hA0P (xor_lt_pow hA0P htP), Nat.xor_cancel_left]
        · push_neg at hxP
          obtain ⟨x0, rfl⟩ : ∃ x0, x = 2 ^ k + x0 := ⟨x - 2 ^ k, by omega⟩
          have hx0P : x0 < 2 ^ k := by omega
          by_cases hyP : y < 2 ^ k
          · have htP : x0 ^^^ y < 2 ^ k := xor_lt_pow hx0P hyP
            refine ⟨A0 ^^^ (x0 ^^^ y), ?_, ?_⟩
            · have h1 : A0 ^^^ (x0 ^^^ y) < 2 ^ k := xor_lt_pow hA0P htP
              omega
            · rw [add_xor_high hx0P hyP,
                add_xor_high hA0P (xor_lt_pow hA0P htP), Nat.xor_cancel_left]
          · push_neg at hyP
            obtain ⟨y0, rfl⟩ : ∃ y0, y = 2 ^ k + y0 := ⟨y - 2 ^ k, by omega⟩
            have hy0P : y0 < 2 ^ k := by omega
            have hB0P : B - 2 ^ k < 2 ^ k := by omega
            obtain ⟨i0, hi0le, hi0⟩ :=
              ih A0 (B - 2 ^ k) x0 y0 hA0P hB0P (by omega) (by omega)
            have hi0P : i0 < 2 ^ k := Nat.lt_of_le_of_lt hi0le hB0P
            refine ⟨2 ^ k + i0, by omega, ?_⟩
            rw [xor_high_high hx0P hy0P, xor_high_high hA0P hi0P]
            exact hi0

/-- Key bound behind the or degree scan: every pair or `x | y` with
`x ≤ A`, `y ≤ B` is dominated by `A | i` for some `i ≤ B`. -/
lemma pair_or_le_scan :
    ∀ (k A B x y : Nat), A < 2 ^ k → B < 2 ^ k → x ≤ A → y ≤ B →
      ∃ i, i ≤ B ∧ x ||| y ≤ A ||| i := by
  intro k
  induction k with
  | zero =>
    intro A B x y hA hB hx hy
    have hA0 : A = 0 := by simp at hA; omega
    have hx0 : x = 0 := by omega
    have hy0 : y = 0 := by simp at hB; omega
    subst hA0; subst hx0; subst hy0
    exact ⟨0, Nat.zero_le B, Nat.le_refl _⟩
  | succ k ih =>
    intro A B x y hA hB hx hy
    have hsplit : (2 : Nat) ^ (k + 1) = 2 ^ k + 2 ^ k := by
      rw [Nat.pow_succ]; omega
    by_cases hAP : A < 2 ^ k
    · by_cases hBP : B < 2 ^ k
      · exact ih A B x y hAP hBP hx hy
      · push_neg at hBP
        have hxP : x < 2 ^ k := Nat.lt_of_le_of_lt hx hAP
        by_cases hyP : y < 2 ^ k
        · refine ⟨x ||| y, ?_, le_or_right A (x ||| y)⟩
          have h1 : x ||| y < 2 ^ k := or_lt_pow hxP hyP
          omega
        · push_neg at hyP
          obtain ⟨y0, rfl⟩ : ∃ y0, y = 2 ^ k + y0 := ⟨y - 2 ^ k, by omega⟩
          have hy0P : y0 < 2 ^ k := by omega
          have hB0P : B - 2 ^ k < 2 ^ k := by omega
          obtain ⟨i0, hi0le, hi0⟩ :=
            ih A (B - 2 ^ k) x y0 hAP hB0P hx (by omega)
          have hi0P : i0 < 2 ^ k := Nat.lt_of_le_of_lt hi0le hB0P
          refine ⟨2 ^ k + i0, by omega, ?_⟩
          rw [or_add_high hxP hy0P, or_add_high hAP hi0P]
          omega
    · push_neg at hAP
      obtain ⟨A0, rfl⟩ : ∃ A0, A = 2 ^ k + A0 := ⟨A - 2 ^ k, by omega⟩
      have hA0P : A0 < 2 ^ k := by omega
      by_cases hBP : B < 2 ^ k
      · have hyP : y < 2 ^ k := Nat.lt_of_le_of_lt hy hBP
        by_cases hxP : x < 2 ^ k
        · refine ⟨0, Nat.zero_le B, ?_⟩
          have h1 : x ||| y < 2 ^ k := or_lt_pow hxP hyP
          rw [Nat.or_zero]; omega
        · push_neg at hxP
          obtain ⟨x0, rfl⟩ : ∃ x0, x = 2 ^ k + x0 := ⟨x - 2 ^ k, by omega⟩
          have hx0P : x0 < 2 ^ k := by omega
          obtain ⟨i, hile, hi⟩ :=
            ih A0 B x0 y hA0P hBP (by omega) hy
          have hiP : i < 2 ^ k := Nat.lt_of_le_of_lt hile hBP
          refine ⟨i, hile, ?_⟩
          rw [add_or_high hx0P hyP, add_or_high hA0P hiP]
          omega
      · push_neg at hBP
        by_cases hxP : x < 2 ^ k
        · by_cases hyP : y < 2 ^ k
          · refine ⟨0, Nat.zero_le B, ?_⟩
            have h1 : x ||| y < 2 ^ k := or_lt_pow hxP hyP
            rw [Nat.or_zero]; omega
          · push_neg at hyP
            obtain ⟨y0, rfl⟩ : ∃ y0, y = 2 ^ k + y0 := ⟨y - 2 ^ k, by omega⟩
            have hy0P : y0 < 2 ^ k := by omega
            have htP : x ||| y0 < 2 ^ k := or_lt_pow hxP hy0P
            refine ⟨x ||| y0, by omega, ?_⟩
            rw [or_add_high hxP hy0P, add_or_high hA0P htP]
            have h1 : x ||| y0 ≤ A0 ||| (x ||| y0) := le_or_right A0 (x ||| y0)
            omega
        · push_neg at hxP
          obtain ⟨x0, rfl⟩ : ∃ x0, x = 2 ^ k + x0 := ⟨x - 2 ^ k, by omega⟩
          have hx0P : x0 < 2 ^ k := by omega
          by_cases hyP : y < 2 ^ k
          · have htP : x0 ||| y < 2 ^ k := or_lt_pow hx0P hyP
            refine ⟨x0 ||| y, by omega, ?_⟩
            rw [add_or_high hx0P hyP, add_or_high hA0P htP]
            have h1 : x0 ||| y ≤ A0 ||| (x0 ||| y) := le_or_right A0 (x0 ||| y)
            omega
          · push_neg at hyP
            obtain ⟨y0, rfl⟩ : ∃ y0, y = 2 ^ k + y0 := ⟨y - 2 ^ k, by omega⟩
            have hy0P : y0 < 2 ^ k := by omega
            have hB0P : B - 2 ^ k < 2 ^ k := by omega
            obtain ⟨i0, hi0le, hi0⟩ :=
              ih A0 (B - 2 ^ k) x0 y0 hA0P hB0P (by omega) (by omega)
            have hi0P : i0 < 2 ^ k := Nat.lt_of_le_of_lt hi0le hB0P
            refine ⟨2 ^ k + i0, by omega, ?_⟩
            rw [or_high_high hx0P hy0P, or_high_high hA0P hi0P]
            omega

end Shortint

namespace Shortint

/-- The xor degree scan, written as a supremum. -/
lemma after_bitxor_val (a b : Degree) :
    (a.after_bitxor b).v =
      max (max a.v b.v)
        ((Finset.range (min a.v b.v + 1)).sup fun i => max a.v b.v ^^^ i) :=
  foldl_scan_eq _ _ _

/-- The or degree scan, written as a supremum. -/
lemma after_bitor_val (a b : Degree) :
    (a.after_bitor b).v =
      max (max a.v b.v)
        ((Finset.range (min a.v b.v + 1)).sup fun i => max a.v b.v ||| i) :=
  foldl_scan_eq _ _ _

/-- The left-shift degree scan, written as a supremum. -/
lemma after_left_shift_val (d : Degree) (shift modulus : Nat) :
    (d.after_left_shift shift modulus).v =
      (Finset.range (d.v + 1)).sup fun i => (i <<< shift) % modulus := by
  have h1 := foldl_scan_eq (fun i => (i <<< shift) % modulus) 0 (d.v + 1)
  have h2 : (d.after_left_shift shift modulus).v =
      (List.range (d.v + 1)).foldl
        (degreeScanStep fun i => (i <<< shift) % modulus) 0 := rfl
  rw [h2, h1]
  exact Nat.max_eq_right (Nat.zero_le _)

/-- The start value of the xor scan is absorbed by the supremum
(the index 0 reproduces it). -/
lemma after_bitxor_eq_sup (a b : Degree) :
    (a.after_bitxor b).v =
      (Finset.range (min a.v b.v + 1)).sup fun i => max a.v b.v ^^^ i := by
  rw [after_bitxor_val]
  apply Nat.max_eq_right
  have h0 : (0 : Nat) ∈ Finset.range (min a.v b.v + 1) := by simp
  have h1 := Finset.le_sup (f := fun i => max a.v b.v ^^^ i) h0
  simpa using h1

/-- The start value of the or scan is absorbed by the supremum. -/
lemma after_bitor_eq_sup (a b : Degree) :
    (a.after_bitor b).v =
      (Finset.range (min a.v b.v + 1)).sup fun i => max a.v b.v ||| i := by
  rw [after_bitor_val]
  apply Nat.max_eq_right
  have h0 : (0 : Nat) ∈ Finset.range (min a.v b.v + 1) := by simp
  have h1 := Finset.le_sup (f := fun i => max a.v b.v ||| i) h0
  simpa using h1

/-- The xor scan equals the brute-force pair maximum. -/
lemma after_bitxor_eq_brute (a b : Degree) :
    (a.after_bitxor b).v = bruteMaxXor a.v b.v := by
  apply Nat.le_antisymm
  · rw [after_bitxor_eq_sup]
    apply Finset.sup_le
    intro i hi
    rw [Finset.mem_range] at hi
    rcases Nat.le_total a.v b.v with hab | hab
    · have hmx : max a.v b.v = b.v := Nat.max_eq_right hab
      have hmn : min a.v b.v = a.v := Nat.min_eq_left hab
      have hmem : (i, b.v) ∈ Finset.range (a.v + 1) ×ˢ Finset.range (b.v + 1) := by
        rw [Finset.mem_product]
        constructor <;> rw [Finset.mem_range] <;> omega
      have h1 := Finset.le_sup (f := fun p : Nat × Nat => p.1 ^^^ p.2) hmem
      rw [hmx, Nat.xor_comm]
      exact h1
    · have hmx : max a.v b.v = a.v := Nat.max_eq_left hab
      have hmn : min a.v b.v = b.v := Nat.min_eq_right hab
      have hmem : (a.v, i) ∈ Finset.range (a.v + 1) ×ˢ Finset.range (b.v + 1) := by
        rw [Finset.mem_product]
        constructor <;> rw [Finset.mem_range] <;> omega
      have h1 := Finset.le_sup (f := fun p : Nat × Nat => p.1 ^^^ p.2) hmem
      rw [hmx]
      exact h1
  · apply Finset.sup_le
    rintro ⟨x, y⟩ hp
    rw [Finset.mem_product, Finset.mem_range, Finset.mem_range] at hp
    have hx : x ≤ a.v := by omega
    have hy : y ≤ b.v := by omega
    rw [after_bitxor_eq_sup]
    rcases Nat.le_total b.v a.v with hab | hab
    · have hmx : max a.v b.v = a.v := Nat.max_eq_left hab
      have hmn : min a.v b.v = b.v := Nat.min_eq_right hab
      obtain ⟨i, hile, hle⟩ :=
        pair_xor_le_scan a.v a.v b.v x y (Nat.lt_two_pow _)
          (Nat.lt_of_le_of_lt hab (Nat.lt_two_pow _)) hx hy
      have hmem : i ∈ Finset.range (b.v + 1) := by
        rw [Finset.mem_range]; omega
      rw [hmx, hmn]
      exact Nat.le_trans hle (Finset.le_sup hmem)
    · have hmx : max a.v b.v = b.v := Nat.max_eq_right hab
      have hmn : min a.v b.v = a.v := Nat.min_eq_left hab
      obtain ⟨i, hile, hle⟩ :=
        pair_xor_le_scan b.v b.v a.v y x (Nat.lt_two_pow _)
          (Nat.lt_of_le_of_lt hab (Nat.lt_two_pow _)) hy hx
      have hmem : i ∈ Finset.range (a.v + 1) := by
        rw [Finset.mem_range]; omega
      rw [hmx, hmn, Nat.xor_comm x y]
      exact Nat.le_trans hle (Finset.le_sup hmem)

/-- The or scan equals the brute-force pair maximum. -/
lemma after_bitor_eq_brute (a b : Degree) :
    (a.after_bitor b).v = bruteMaxOr a.v b.v := by
  apply Nat.le_antisymm
  · rw [after_bitor_eq_sup]
    apply Finset.sup_le
    intro i hi
    rw [Finset.mem_range] at hi
    rcases Nat.le_total a.v b.v with hab | hab
    · have hmx : max a.v b.v = b.v := Nat.max_eq_right hab
      have hmn : min a.v b.v = a.v := Nat.min_eq_left hab
      have hmem : (i, b.v) ∈ Finset.range (a.v + 1) ×ˢ Finset.range (b.v + 1) := by
        rw [Finset.mem_product]
        constructor <;> rw [Finset.mem_range] <;> omega
      have h1 := Finset.le_sup (f := fun p : Nat × Nat => p.1 ||| p.2) hmem
      rw [hmx, Nat.or_comm]
      exact h1
    · have hmx : max a.v b.v = a.v := Nat.max_eq_left hab
      have hmn : min a.v b.v = b.v := Nat.min_eq_right hab
      have hmem : (a.v, i) ∈ Finset.range (a.v + 1) ×ˢ Finset.range (b.v + 1) := by
        rw [Finset.mem_product]
        constructor <;> rw [Finset.mem_range] <;> omega
      have h1 := Finset.le_sup (f := fun p : Nat × Nat => p.1 ||| p.2) hmem
      rw [hmx]
      exact h1
  · apply Finset.sup_le
    rintro ⟨x, y⟩ hp
    rw [Finset.mem_product, Finset.mem_range, Finset.mem_range] at hp
    have hx : x ≤ a.v := by omega
    have hy : y ≤ b.v := by omega
    rw [after_bitor_eq_sup]
    rcases Nat.le_total b.v a.v with hab | hab
    · have hmx : max a.v b.v = a.v := Nat.max_eq_left hab
      have hmn : min a.v b.v = b.v := Nat.min_eq_right hab
      obtain ⟨i, hile, hle⟩ :=
        pair_or_le_scan a.v a.v b.v x y (Nat.lt_two_pow _)
          (Nat.lt_of_le_of_lt hab (Nat.lt_two_pow _)) hx hy
      have hmem : i ∈ Finset.range (b.v + 1) := by
        rw [Finset.mem_range]; omega
      rw [hmx, hmn]
      exact Nat.le_trans hle (Finset.le_sup hmem)
    · have hmx : max a.v b.v = b.v := Nat.max_eq_right hab
      have hmn : min a.v b.v = a.v := Nat.min_eq_left hab
      obtain ⟨i, hile, hle⟩ :=
        pair_or_le_scan b.v b.v a.v y x (Nat.lt_two_pow _)
          (Nat.lt_of_le_of_lt hab (Nat.lt_two_pow _)) hy hx
      have hmem : i ∈ Finset.range (a.v + 1) := by
        rw [Finset.mem_range]; omega
      rw [hmx, hmn, Nat.or_comm x y]
      exact Nat.le_trans hle (Finset.le_sup hmem)

end Shortint

namespace Shortint

/-- chunksExact yields length / k chunks (fuel-indexed induction). -/
lemma chunksExact_length_aux (k : Nat) (hk : k ≠ 0) :
    ∀ n (l : List Nat), l.length ≤ n →
      (chunksExact k l).length = l.length / k := by
  intro n
  induction n with
  | zero =>
    intro l hl
    have hlen : l.length = 0 := Nat.le_zero.mp hl
    rw [chunksExact, dif_neg]
    · simp [hlen]
    · rintro ⟨h1, h2⟩; omega
  | succ n ih =>
    intro l hl
    rw [chunksExact]
    by_cases h : k ≠ 0 ∧ k ≤ l.length
    · rw [dif_pos h]
      have hih := ih (l.drop k) (by simp; omega)
      simp only [List.length_cons, hih, List.length_drop]
      rw [Nat.div_eq_sub_div (Nat.pos_of_ne_zero hk) h.2]
    · rw [dif_neg h]
      push_neg at h
      have h1 : l.length < k := h hk
      simp [Nat.div_eq_of_lt h1]

/-- chunksExact yields length / k chunks. -/
lemma chunksExact_length (k : Nat) (hk : k ≠ 0) (l : List Nat) :
    (chunksExact k l).length = l.length / k :=
  chunksExact_length_aux k hk l.length l (Nat.le_refl _)

/-- The i-th chunk is the i-th k-sized slice of the list. -/
lemma chunksExact_getD_aux (k : Nat) (hk : k ≠ 0) :
    ∀ n (l : List Nat), l.length ≤ n → ∀ i, i < (chunksExact k l).length →
      (chunksExact k l).getD i [] = (l.drop (i * k)).take k := by
  intro n
  induction n with
  | zero =>
    intro l hl i hi
    rw [chunksExact_length k hk l] at hi
    have hlen : l.length = 0 := Nat.le_zero.mp hl
    rw [hlen] at hi
    simp at hi
  | succ n ih =>
    intro l hl i hi
    rw [chunksExact]
    by_cases h : k ≠ 0 ∧ k ≤ l.length
    · rw [dif_pos h]
      cases i with
      | zero => simp
      | succ i =>
        simp only [List.getD_cons_succ]
        have hi2 : i < (chunksExact k (l.drop k)).length := by
          rw [chunksExact, dif_pos h] at hi
          simpa using hi
        rw [ih (l.drop k) (by simp; omega) i hi2, List.drop_drop]
        congr 2
        rw [Nat.succ_mul]
        omega
    · rw [chunksExact, dif_neg h] at hi
      simp at hi

/-- The i-th chunk is the i-th k-sized slice of the list. -/
lemma chunksExact_getD (k : Nat) (hk : k ≠ 0) (l : List Nat) (i : Nat)
    (hi : i < (chunksExact k l).length) :
    (chunksExact k l).getD i [] = (l.drop (i * k)).take k :=
  chunksExact_getD_aux k hk l.length l (Nat.le_refl _) i hi

/-- The expanded buffer has exactly `lwe_size * count` elements. -/
lemma par_expand_length (l : LweCompactListRaw) :
    (par_expand_lwe_compact_ciphertext_list l).length = l.lwe_size * l.count := by
  simp [par_expand_lwe_compact_ciphertext_list]

/-- Splitting off the last element of a nonempty list. -/
lemma dropLast_append_getLastD (lst : List Nat) (h : lst ≠ []) :
    lst.dropLast ++ [lst.getLastD 0] = lst := by
  have h1 : lst.getLastD 0 = lst.getLast h := by
    rw [List.getLastD_eq_getLast?, List.getLast?_eq_getLast lst h]
    rfl
  rw [h1]
  exact List.dropLast_append_getLast h

end Shortint

namespace TfheBoolean

/-- Reading a canonically length-prefixed blob succeeds and returns the
blob and the remainder. -/
lemma readBlob_append (l r : List Nat) :
    readBlob (l.length :: (l ++ r)) = some (l, r) := by
  rw [readBlob]
  have h1 : l.length ≤ (l ++ r).length := by simp
  rw [if_pos h1, List.take_left, List.drop_left]

/-- Reading a length-prefixed blob with nothing after it. -/
lemma readBlob_self (l : List Nat) :
    readBlob (l.length :: l) = some (l, []) := by
  have h1 := readBlob_append l []
  rwa [List.append_nil] at h1

/-- A successful blob read means the input was exactly the
length-prefixed blob followed by the remainder. -/
lemma readBlob_eq {bs : List Nat} {p : List Nat × List Nat}
    (h : readBlob bs = some p) : bs = p.1.length :: (p.1 ++ p.2) := by
  cases bs with
  | nil => simp [readBlob] at h
  | cons n rest =>
    rw [readBlob] at h
    by_cases hle : n ≤ rest.length
    · rw [if_pos hle] at h
      have hp : p = (rest.take n, rest.drop n) := by
        injection h with h2
        exact h2.symm
      subst hp
      simp only
      rw [List.length_take, Nat.min_eq_left hle, List.take_append_drop]
    · rw [if_neg hle] at h
      exact absurd h (by simp)

/-- Decoding the wrapper succeeds only on its canonical encoding. -/
lemma decode_eq {bs : List Nat} {s : SerializableServerKey}
    (h : SerializableServerKey.decode bs = some s) :
    bs = s.encode := by
  rw [SerializableServerKey.decode] at h
  split at h
  · exact absurd h (by simp)
  · rename_i p1 heq1
    split at h
    · exact absurd h (by simp)
    · rename_i p2 heq2
      split at h
      · rename_i hr2
        have hs : s = ⟨p1.1, p2.1⟩ := by
          injection h with h4
          exact h4.symm
        subst hs
        have e1 := readBlob_eq heq1
        have e2 := readBlob_eq heq2
        rw [SerializableServerKey.encode]
        simp only at e1 e2 ⊢
        rw [e1, e2, hr2]
        simp
      · exact absurd h (by simp)

/-- Decoding the canonical wrapper encoding recovers the record. -/
lemma decode_encode (s : SerializableServerKey) :
    SerializableServerKey.decode s.encode = some s := by
  have h1 : readBlob s.encode =
      some (s.bootstrapping_key,
        s.key_switching_key.length :: s.key_switching_key) := by
    rw [SerializableServerKey.encode]
    exact readBlob_append _ _
  have h2 : readBlob (s.key_switching_key.length :: s.key_switching_key) =
      some (s.key_switching_key, []) := readBlob_self _
  rw [SerializableServerKey.decode, h1]
  simp [h2]

/-- bincode round trip for the Fourier bootstrapping key. -/
lemma fourier_bincode_roundtrip (k : FourierBsk) :
    FourierBsk.bincode_deserialize k.bincode_serialize = some k := by
  simp [FourierBsk.bincode_serialize, FourierBsk.bincode_deserialize]

/-- bincode round trip for the keyswitching key. -/
lemma ksk_bincode_roundtrip (k : Ksk) :
    Ksk.bincode_deserialize k.bincode_serialize = some k := by
  simp [Ksk.bincode_serialize, Ksk.bincode_deserialize]

/-- A successful Fourier-key decode means the blob was canonical. -/
lemma fourier_bincode_eq {bs : List Nat} {k : FourierBsk}
    (h : FourierBsk.bincode_deserialize bs = some k) :
    bs = k.bincode_serialize := by
  rcases bs with _ | ⟨a, _ | ⟨b, _ | ⟨c, _ | ⟨d, _ | ⟨e, _ | ⟨n, rest⟩⟩⟩⟩⟩⟩ <;>
    first
      | exact Option.noConfusion h
      | skip
  rw [show FourierBsk.bincode_deserialize (a :: b :: c :: d :: e :: n :: rest) =
      (if rest.length = n then some ⟨a, b, c, d, e, rest⟩ else none) from rfl] at h
  by_cases hn : rest.length = n
  · rw [if_pos hn] at h
    have hk : k = ⟨a, b, c, d, e, rest⟩ := by
      injection h with h2
      exact h2.symm
    subst hk
    rw [FourierBsk.bincode_serialize]
    simp [hn]
  · rw [if_neg hn] at h
    exact absurd h (by simp)

/-- A successful keyswitch-key decode means the blob was canonical. -/
lemma ksk_bincode_eq {bs : List Nat} {k : Ksk}
    (h : Ksk.bincode_deserialize bs = some k) :
    bs = k.bincode_serialize := by
  rcases bs with _ | ⟨a, _ | ⟨b, _ | ⟨n, rest⟩⟩⟩ <;>
    first
      | exact Option.noConfusion h
      | skip
  rw [show Ksk.bincode_deserialize (a :: b :: n :: rest) =
      (if rest.length = n then some ⟨a, b, rest⟩ else none) from rfl] at h
  by_cases hn : rest.length = n
  · rw [if_pos hn] at h
    have hk : k = ⟨a, b, rest⟩ := by
      injection h with h2
      exact h2.symm
    subst hk
    rw [Ksk.bincode_serialize]
    simp [hn]
  · rw [if_neg hn] at h
    exact absurd h (by simp)

/-- Deserialization only accepts the canonical serialization. -/
lemma deserialize_ok_eq {bs : List Nat} {sk : ServerKey}
    (h : ServerKey.deserialize bs = Except.ok sk) :
    bs = sk.serialize := by
  rw [ServerKey.deserialize] at h
  split at h
  · exact absurd h (by simp)
  · rename_i thing heq1
    split at h
    · exact absurd h (by simp)
    · rename_i kskv heq2
      split at h
      · exact absurd h (by simp)
      · rename_i bskv heq3
        have hsk : sk = ⟨bskv, kskv⟩ := by
          injection h with h2
          exact h2.symm
        subst hsk
        rw [ServerKey.serialize]
        have e1 := decode_eq heq1
        have e2 := ksk_bincode_eq heq2
        have e3 := fourier_bincode_eq heq3
        have e4 : thing = ⟨bskv.bincode_serialize, kskv.bincode_serialize⟩ := by
          cases thing
          simp only at e2 e3
          rw [e2, e3]
        rw [e1, e4]

/-- Full serialization round trip. -/
lemma serialize_roundtrip (sk : ServerKey) :
    ServerKey.deserialize sk.serialize = Except.ok sk := by
  have h1 : SerializableServerKey.decode sk.serialize =
      some ⟨sk.bootstrapping_key.bincode_serialize,
        sk.key_switching_key.bincode_serialize⟩ := by
    rw [ServerKey.serialize]
    exact decode_encode _
  rw [ServerKey.deserialize, h1]
  simp [ksk_bincode_roundtrip, fourier_bincode_roundtrip]

end TfheBoolean

/-! ## Claim theorems -/

/-- C1: noise propagation of the unchecked binary operations - add and
sub sum the operand noise levels, apply_lookup_table always yields
NOMINAL, mul_lsb/mul_msb yield NOMINAL on two non-trivial operands and
ZERO as soon as one operand has degree 0. -/
theorem C1_unchecked_noise_propagation
    (x y : Shortint.Sem.Ct) (t : Shortint.Sem.LookupTable) :
    (Shortint.Sem.unchecked_add x y).noise_level =
        x.noise_level.add y.noise_level ∧
    (Shortint.Sem.unchecked_sub x y).noise_level =
        x.noise_level.add y.noise_level ∧
    (Shortint.Sem.apply_lookup_table x t).noise_level =
        Shortint.NoiseLevel.NOMINAL ∧
    (x.degree.v ≠ 0 → y.degree.v ≠ 0 →
      (Shortint.Sem.unchecked_mul_lsb x y).noise_level =
          Shortint.NoiseLevel.NOMINAL ∧
      (Shortint.Sem.unchecked_mul_msb x y).noise_level =
          Shortint.NoiseLevel.NOMINAL) ∧
    ((x.degree.v = 0 ∨ y.degree.v = 0) →
      (Shortint.Sem.unchecked_mul_lsb x y).noise_level =
          Shortint.NoiseLevel.ZERO ∧
      (Shortint.Sem.unchecked_mul_msb x y).noise_level =
          Shortint.NoiseLevel.ZERO) := by
  refine ⟨rfl, rfl, rfl, ?_, ?_⟩
  · intro hx hy
    constructor <;>
      simp [Shortint.Sem.unchecked_mul_lsb, Shortint.Sem.unchecked_mul_msb,
        hx, hy]
  · intro hor
    constructor <;>
      simp [Shortint.Sem.unchecked_mul_lsb, Shortint.Sem.unchecked_mul_msb,
        hor]

/-- Witness for C1 at concrete inputs (two non-trivial operands, then a
trivial one). -/
theorem C1_unchecked_noise_propagation_witness :
    (Shortint.Sem.unchecked_mul_lsb ⟨3, ⟨3⟩, ⟨1⟩, 4, 4⟩
        ⟨2, ⟨2⟩, ⟨1⟩, 4, 4⟩).noise_level = Shortint.NoiseLevel.NOMINAL ∧
    (Shortint.Sem.unchecked_mul_lsb ⟨3, ⟨3⟩, ⟨1⟩, 4, 4⟩
        ⟨0, ⟨0⟩, ⟨0⟩, 4, 4⟩).noise_level = Shortint.NoiseLevel.ZERO :=
  ⟨((C1_unchecked_noise_propagation ⟨3, ⟨3⟩, ⟨1⟩, 4, 4⟩ ⟨2, ⟨2⟩, ⟨1⟩, 4, 4⟩
      ⟨fun v => v⟩).2.2.2.1 (by decide) (by decide)).1,
   ((C1_unchecked_noise_propagation ⟨3, ⟨3⟩, ⟨1⟩, 4, 4⟩ ⟨0, ⟨0⟩, ⟨0⟩, 4, 4⟩
      ⟨fun v => v⟩).2.2.2.2 (by decide)).1⟩

/-- C2 counterexample: on a full ciphertext (degree 15 in a 4x4
plaintext space) with scalar 1 the safety test fails, and the unsafe
branch does not behave as one refresh of the same value followed by an
unchecked scalar add - the code computes the shifted value inside the
single lookup table and ends at degree 3, while the claimed
refresh-then-retry path would end at degree 4. -/
theorem C2_smart_scalar_add_counterexample :
    Shortint.Sem.is_scalar_add_possible ⟨4, 4⟩ ⟨15, ⟨15⟩, ⟨1⟩, 4, 4⟩ 1 = false ∧
    (Shortint.Sem.smart_scalar_add_assign ⟨4, 4⟩
        ⟨15, ⟨15⟩, ⟨1⟩, 4, 4⟩ 1).degree = ⟨3⟩ ∧
    (Shortint.Sem.smart_scalar_add_claimed ⟨4, 4⟩
        ⟨15, ⟨15⟩, ⟨1⟩, 4, 4⟩ 1).degree = ⟨4⟩ ∧
    Shortint.Sem.smart_scalar_add_assign ⟨4, 4⟩ ⟨15, ⟨15⟩, ⟨1⟩, 4, 4⟩ 1 ≠
      Shortint.Sem.smart_scalar_add_claimed ⟨4, 4⟩ ⟨15, ⟨15⟩, ⟨1⟩, 4, 4⟩ 1 := by
  decide

/-- C2 amended: smart_scalar_add delegates to the unchecked path when
the safety predicate holds; otherwise it applies exactly one lookup
table computing `x ↦ (s + x) mod message_modulus` (a single embedded
bootstrap, with no subsequent unchecked add), returning degree
`message_modulus - 1` and NOMINAL noise; in either case the returned
plaintext is congruent to `original + s` modulo the message modulus. -/
theorem C2_smart_scalar_add_amended
    (sk : Shortint.ServerKey) (ct : Shortint.Sem.Ct) (s : Nat)
    (h1 : ct.message_modulus = sk.message_modulus) :
    (Shortint.Sem.is_scalar_add_possible sk ct s = true →
      Shortint.Sem.smart_scalar_add_assign sk ct s =
        Shortint.Sem.unchecked_scalar_add_assign ct s) ∧
    (Shortint.Sem.is_scalar_add_possible sk ct s = false →
      (Shortint.Sem.smart_scalar_add_assign sk ct s).degree =
          ⟨sk.message_modulus - 1⟩ ∧
      (Shortint.Sem.smart_scalar_add_assign sk ct s).noise_level =
          Shortint.NoiseLevel.NOMINAL ∧
      (Shortint.Sem.smart_scalar_add_assign sk ct s).plain =
          (s + ct.plain) % sk.message_modulus) ∧
    (Shortint.Sem.smart_scalar_add_assign sk ct s).plain % ct.message_modulus =
      (ct.plain + s) % ct.message_modulus := by
  have key : ∀ z c : Nat,
      z % sk.message_modulus % (sk.message_modulus * c) =
        z % sk.message_modulus := by
    intro z c
    by_cases hmm0 : sk.message_modulus = 0
    · simp [hmm0]
    · by_cases hc0 : c = 0
      · simp [hc0]
      · apply Nat.mod_eq_of_lt
        have hlt : z % sk.message_modulus < sk.message_modulus :=
          Nat.mod_lt _ (Nat.pos_of_ne_zero hmm0)
        have hle : sk.message_modulus ≤ sk.message_modulus * c :=
          Nat.le_mul_of_pos_right _ (Nat.pos_of_ne_zero hc0)
        omega
  cases h : Shortint.Sem.is_scalar_add_possible sk ct s with
  | true =>
    refine ⟨fun _ => ?_, fun hf => absurd hf (by simp), ?_⟩
    · simp [Shortint.Sem.smart_scalar_add_assign, h]
    · simp [Shortint.Sem.smart_scalar_add_assign, h,
        Shortint.Sem.unchecked_scalar_add_assign]
  | false =>
    have hplain : (Shortint.Sem.smart_scalar_add_assign sk ct s).plain =
        (s + ct.plain) % sk.message_modulus := by
      simp only [Shortint.Sem.smart_scalar_add_assign, h, Bool.false_eq_true,
        if_false, Shortint.Sem.apply_lookup_table,
        Shortint.Sem.generate_lookup_table]
      rw [h1]
      exact key _ _
    refine ⟨fun ht => absurd ht (by simp),
      fun _ => ⟨?_, ?_, hplain⟩, ?_⟩
    · simp [Shortint.Sem.smart_scalar_add_assign, h,
        Shortint.Sem.apply_lookup_table, Shortint.Sem.generate_lookup_table]
    · simp [Shortint.Sem.smart_scalar_add_assign, h,
        Shortint.Sem.apply_lookup_table, Shortint.Sem.generate_lookup_table]
    · rw [hplain, h1, Nat.mod_mod_of_dvd _ dvd_rfl, Nat.add_comm s ct.plain]

/-- Witness for C2 amended at a concrete safe input and the theorem's
moduli-agreement hypothesis. -/
theorem C2_smart_scalar_add_amended_witness :
    (Shortint.Sem.smart_scalar_add_assign ⟨4, 4⟩ ⟨1, ⟨1⟩, ⟨1⟩, 4, 4⟩ 2).plain % 4 =
      (1 + 2) % 4 :=
  (C2_smart_scalar_add_amended ⟨4, 4⟩ ⟨1, ⟨1⟩, ⟨1⟩, 4, 4⟩ 2 rfl).2.2

/-- C3: unchecked_scalar_add adds `s` to the degree, leaves the noise
level untouched, shifts the raw LWE body by the encoded plaintext
`s * delta` with `delta = 2^63 / (message_modulus * carry_modulus)`,
and leaves the mask, the moduli and the PBS order unchanged. -/
theorem C3_unchecked_scalar_add_spec (sk : Shortint.ServerKey)
    (ct : Shortint.Ciphertext) (s : Nat) (_hs : s < 256) :
    (Shortint.unchecked_scalar_add sk ct s).degree = ⟨ct.degree.v + s⟩ ∧
    (Shortint.unchecked_scalar_add sk ct s).noise_level = ct.noise_level ∧
    (Shortint.unchecked_scalar_add sk ct s).ct.body =
      (ct.ct.body + s * (2 ^ 63 / (sk.message_modulus * sk.carry_modulus))) %
        Shortint.U64MOD ∧
    (Shortint.unchecked_scalar_add sk ct s).ct.mask = ct.ct.mask ∧
    (Shortint.unchecked_scalar_add sk ct s).message_modulus =
      ct.message_modulus ∧
    (Shortint.unchecked_scalar_add sk ct s).carry_modulus = ct.carry_modulus ∧
    (Shortint.unchecked_scalar_add sk ct s).pbs_order = ct.pbs_order :=
  ⟨rfl, rfl, rfl, rfl, rfl, rfl, rfl⟩

/-- Witness for C3 at a concrete ciphertext and scalar. -/
theorem C3_unchecked_scalar_add_spec_witness :
    (3 : Nat) < 256 ∧
    (Shortint.unchecked_scalar_add ⟨4, 4⟩
        ⟨⟨[5], 7⟩, ⟨2⟩, ⟨1⟩, 4, 4, Shortint.PBSOrder.KeyswitchBootstrap⟩
        3).ct.body = (7 + 3 * (2 ^ 63 / (4 * 4))) % Shortint.U64MOD :=
  ⟨by decide,
   (C3_unchecked_scalar_add_spec ⟨4, 4⟩
      ⟨⟨[5], 7⟩, ⟨2⟩, ⟨1⟩, 4, 4, Shortint.PBSOrder.KeyswitchBootstrap⟩
      3 (by decide)).2.2.1⟩

/-- C5 counterexample: unchecked_scalar_add on a valid ciphertext at
degree 15 (message and carry moduli 4, so the plaintext space is 16)
with scalar 1 produces degree 16, violating
`degree < message_modulus * carry_modulus`; the unchecked tier performs
no check and no clamping. -/
theorem C5_degree_invariant_counterexample :
    ¬ ((Shortint.unchecked_scalar_add ⟨4, 4⟩
        ⟨⟨[], 0⟩, ⟨15⟩, ⟨1⟩, 4, 4, Shortint.PBSOrder.KeyswitchBootstrap⟩
        1).degree.v <
      (Shortint.unchecked_scalar_add ⟨4, 4⟩
        ⟨⟨[], 0⟩, ⟨15⟩, ⟨1⟩, 4, 4, Shortint.PBSOrder.KeyswitchBootstrap⟩
        1).message_modulus *
      (Shortint.unchecked_scalar_add ⟨4, 4⟩
        ⟨⟨[], 0⟩, ⟨15⟩, ⟨1⟩, 4, 4, Shortint.PBSOrder.KeyswitchBootstrap⟩
        1).carry_modulus) := by
  intro hlt
  have h1 : (Shortint.unchecked_scalar_add ⟨4, 4⟩
      ⟨⟨[], 0⟩, ⟨15⟩, ⟨1⟩, 4, 4, Shortint.PBSOrder.KeyswitchBootstrap⟩
      1).degree.v = 16 := rfl
  have h2 : (Shortint.unchecked_scalar_add ⟨4, 4⟩
      ⟨⟨[], 0⟩, ⟨15⟩, ⟨1⟩, 4, 4, Shortint.PBSOrder.KeyswitchBootstrap⟩
      1).message_modulus = 4 := rfl
  have h3 : (Shortint.unchecked_scalar_add ⟨4, 4⟩
      ⟨⟨[], 0⟩, ⟨15⟩, ⟨1⟩, 4, 4, Shortint.PBSOrder.KeyswitchBootstrap⟩
      1).carry_modulus = 4 := rfl
  rw [h1, h2, h3] at hlt
  omega

/-- C5 amended: the degree stays below `message_modulus * carry_modulus`
for the unchecked scalar add whenever its caller-side precondition
holds (and the new degree is exactly `old + s`, never clamped), and
unconditionally for the smart scalar add; the bare unchecked tier
checks nothing and can exceed the bound. -/
theorem C5_degree_invariant_amended
    (sk : Shortint.ServerKey) (ct : Shortint.Ciphertext)
    (sct : Shortint.Sem.Ct) (s : Nat)
    (h1 : ct.message_modulus = sk.message_modulus)
    (h2 : ct.carry_modulus = sk.carry_modulus)
    (hmm : 0 < sk.message_modulus) (hcm : 0 < sk.carry_modulus) :
    (Shortint.unchecked_scalar_add sk ct s).degree.v = ct.degree.v + s ∧
    (ct.degree.v + s < sk.message_modulus * sk.carry_modulus →
      (Shortint.unchecked_scalar_add sk ct s).degree.v <
        (Shortint.unchecked_scalar_add sk ct s).message_modulus *
          (Shortint.unchecked_scalar_add sk ct s).carry_modulus) ∧
    (Shortint.Sem.smart_scalar_add_assign sk sct s).degree.v <
      sk.message_modulus * sk.carry_modulus := by
  have hdeg : (Shortint.unchecked_scalar_add sk ct s).degree.v =
      ct.degree.v + s := rfl
  have hm : (Shortint.unchecked_scalar_add sk ct s).message_modulus =
      ct.message_modulus := rfl
  have hc : (Shortint.unchecked_scalar_add sk ct s).carry_modulus =
      ct.carry_modulus := rfl
  refine ⟨hdeg, ?_, ?_⟩
  · intro hpre
    rw [hdeg, hm, hc, h1, h2]
    exact hpre
  · cases h : Shortint.Sem.is_scalar_add_possible sk sct s with
    | true =>
      have hposs : sct.degree.v + s <
          sk.message_modulus * sk.carry_modulus := by
        have h4 := of_decide_eq_true h
        exact h4
      simp [Shortint.Sem.smart_scalar_add_assign, h,
        Shortint.Sem.unchecked_scalar_add_assign]
      exact hposs
    | false =>
      have hle : sk.message_modulus ≤
          sk.message_modulus * sk.carry_modulus :=
        Nat.le_mul_of_pos_right _ hcm
      simp [Shortint.Sem.smart_scalar_add_assign, h,
        Shortint.Sem.apply_lookup_table, Shortint.Sem.generate_lookup_table]
      omega

/-- Witness for C5 amended at a concrete in-range input. -/
theorem C5_degree_invariant_amended_witness :
    (Shortint.unchecked_scalar_add ⟨4, 4⟩
        ⟨⟨[], 0⟩, ⟨2⟩, ⟨1⟩, 4, 4, Shortint.PBSOrder.KeyswitchBootstrap⟩
        1).degree.v = 3 ∧
    (Shortint.Sem.smart_scalar_add_assign ⟨4, 4⟩ ⟨2, ⟨2⟩, ⟨1⟩, 4, 4⟩ 1).degree.v <
      16 := by
  have h := C5_degree_invariant_amended ⟨4, 4⟩
    ⟨⟨[], 0⟩, ⟨2⟩, ⟨1⟩, 4, 4, Shortint.PBSOrder.KeyswitchBootstrap⟩
    ⟨2, ⟨2⟩, ⟨1⟩, 4, 4⟩ 1 rfl rfl (by decide) (by decide)
  exact ⟨h.1, h.2.2⟩

/-- C4: degree bounds for the bitwise operations - after_bitand is
exactly (hence at most) the minimum of the operand degrees; the xor and
or scans are at least the maximum of the operand degrees and each
equals the brute-force maximum over all plaintext pairs bounded by the
two degrees; and for `maxA ≥ maxB` the xor result is exactly
`max(maxA, max over 0 ≤ i ≤ minB of maxA ^ i)`. -/
theorem C4_bitwise_degree_bounds (a b : Shortint.Degree) :
    a.after_bitand b = ⟨min a.v b.v⟩ ∧
    (a.after_bitand b).v ≤ min a.v b.v ∧
    max a.v b.v ≤ (a.after_bitxor b).v ∧
    max a.v b.v ≤ (a.after_bitor b).v ∧
    (a.after_bitxor b).v = Shortint.bruteMaxXor a.v b.v ∧
    (a.after_bitor b).v = Shortint.bruteMaxOr a.v b.v ∧
    (b.v ≤ a.v →
      (a.after_bitxor b).v =
        max a.v ((Finset.range (b.v + 1)).sup fun i => a.v ^^^ i)) := by
  refine ⟨rfl, Nat.le_refl _, ?_, ?_, Shortint.after_bitxor_eq_brute a b,
    Shortint.after_bitor_eq_brute a b, ?_⟩
  · rw [Shortint.after_bitxor_val]
    exact Nat.le_max_left _ _
  · rw [Shortint.after_bitor_val]
    exact Nat.le_max_left _ _
  · intro hba
    rw [Shortint.after_bitxor_val, Nat.max_eq_left hba, Nat.min_eq_right hba]

/-- Witness for C4 at concrete degrees 5 and 3. -/
theorem C4_bitwise_degree_bounds_witness :
    (3 : Nat) ≤ 5 ∧
    (Shortint.Degree.after_bitxor ⟨5⟩ ⟨3⟩).v =
      max 5 ((Finset.range 4).sup fun i => 5 ^^^ i) :=
  ⟨by decide, (C4_bitwise_degree_bounds ⟨5⟩ ⟨3⟩).2.2.2.2.2.2 (by decide)⟩

/-- C6: after_left_shift equals the maximum of `(v << k) % m` over every
plaintext value `v` in `[0, d]`. -/
theorem C6_after_left_shift_spec (d : Shortint.Degree) (k m : Nat)
    (_hm : 0 < m) :
    (d.after_left_shift k m).v =
      (Finset.range (d.v + 1)).sup fun v => (v <<< k) % m :=
  Shortint.after_left_shift_val d k m

/-- Witness for C6 at degree 3, shift 1, modulus 4 (the shift wraps
through the modulus). -/
theorem C6_after_left_shift_spec_witness :
    (0 : Nat) < 4 ∧
    (Shortint.Degree.after_left_shift ⟨3⟩ 1 4).v =
      (Finset.range 4).sup fun v => (v <<< 1) % 4 :=
  ⟨by decide, C6_after_left_shift_spec ⟨3⟩ 1 4 (by decide)⟩

/-- C10: carry_is_empty returns true exactly when
`degree < message_modulus`, and it is a pure function of the degree and
message-modulus fields only. -/
theorem C10_carry_is_empty_spec (ct : Shortint.Ciphertext) :
    (ct.carry_is_empty = true ↔ ct.degree.v < ct.message_modulus) ∧
    ∀ ct2 : Shortint.Ciphertext, ct.degree = ct2.degree →
      ct.message_modulus = ct2.message_modulus →
      ct.carry_is_empty = ct2.carry_is_empty := by
  constructor
  · simp [Shortint.Ciphertext.carry_is_empty]
  · intro ct2 hdeg hmm
    simp [Shortint.Ciphertext.carry_is_empty, hdeg, hmm]

/-- Witness for C10: two ciphertexts differing in every field except
degree and message modulus agree on carry_is_empty. -/
theorem C10_carry_is_empty_spec_witness :
    Shortint.Ciphertext.carry_is_empty
        ⟨⟨[1], 2⟩, ⟨3⟩, ⟨1⟩, 4, 4, Shortint.PBSOrder.KeyswitchBootstrap⟩ =
      Shortint.Ciphertext.carry_is_empty
        ⟨⟨[9], 8⟩, ⟨3⟩, ⟨7⟩, 4, 2, Shortint.PBSOrder.BootstrapKeyswitch⟩ :=
  (C10_carry_is_empty_spec
      ⟨⟨[1], 2⟩, ⟨3⟩, ⟨1⟩, 4, 4, Shortint.PBSOrder.KeyswitchBootstrap⟩).2
    ⟨⟨[9], 8⟩, ⟨3⟩, ⟨7⟩, 4, 2, Shortint.PBSOrder.BootstrapKeyswitch⟩ rfl rfl

namespace TfheBoolean

/-- The grown buffer never shrinks: its length is the max of the old
length and the requested element count. -/
lemma grownBuffer_length (m : Memory) (t : Nat) :
    (m.grownBuffer t).length = max m.buffer.length t := by
  rw [Memory.grownBuffer]
  split <;> simp <;> omega

end TfheBoolean

/-- C7: as_buffers returns an accumulator view of exactly
`glwe_size * polynomial_size` elements whose mask part is all zeros and
whose body part is filled with the logical-true plaintext, and an LWE
view of exactly `output_lwe_dimension + 1` elements; the two views are
the two adjacent disjoint slices at the start of the backing buffer,
whose length only grows (to the max of the old length and the needed
total). -/
theorem C7_as_buffers_spec (m : TfheBoolean.Memory) (sk : TfheBoolean.ServerKey)
    (hg : 0 < sk.bootstrapping_key.glwe_size) :
    ((m.as_buffers sk).2.1).length =
      sk.bootstrapping_key.glwe_size * sk.bootstrapping_key.polynomial_size ∧
    (m.as_buffers sk).2.1 =
      List.replicate ((sk.bootstrapping_key.glwe_size - 1) *
          sk.bootstrapping_key.polynomial_size) 0 ++
        List.replicate sk.bootstrapping_key.polynomial_size
          TfheBoolean.PLAINTEXT_TRUE ∧
    ((m.as_buffers sk).2.2).length =
      sk.bootstrapping_key.output_lwe_dimension + 1 ∧
    (m.as_buffers sk).2.1 =
      ((m.as_buffers sk).1.buffer).take
        (sk.bootstrapping_key.glwe_size *
          sk.bootstrapping_key.polynomial_size) ∧
    (m.as_buffers sk).2.2 =
      (((m.as_buffers sk).1.buffer).drop
        (sk.bootstrapping_key.glwe_size *
          sk.bootstrapping_key.polynomial_size)).take
        (sk.bootstrapping_key.output_lwe_dimension + 1) ∧
    m.buffer.length ≤ ((m.as_buffers sk).1.buffer).length ∧
    ((m.as_buffers sk).1.buffer).length =
      max m.buffer.length
        (sk.bootstrapping_key.glwe_size *
            sk.bootstrapping_key.polynomial_size +
          (sk.bootstrapping_key.output_lwe_dimension + 1)) := by
  have haccl : (List.replicate ((sk.bootstrapping_key.glwe_size - 1) *
        sk.bootstrapping_key.polynomial_size) (0 : Nat) ++
      List.replicate sk.bootstrapping_key.polynomial_size
        TfheBoolean.PLAINTEXT_TRUE).length =
      sk.bootstrapping_key.glwe_size *
        sk.bootstrapping_key.polynomial_size := by
    rw [List.length_append, List.length_replicate, List.length_replicate]
    have h1 : (sk.bootstrapping_key.glwe_size - 1) *
          sk.bootstrapping_key.polynomial_size +
        sk.bootstrapping_key.polynomial_size =
        ((sk.bootstrapping_key.glwe_size - 1) + 1) *
          sk.bootstrapping_key.polynomial_size := (Nat.succ_mul _ _).symm
    rw [h1]
    congr 1
    omega
  have hgl := TfheBoolean.grownBuffer_length m
    (sk.bootstrapping_key.glwe_size * sk.bootstrapping_key.polynomial_size +
      (sk.bootstrapping_key.output_lwe_dimension + 1))
  have e1 : (m.as_buffers sk).1.buffer =
      (List.replicate ((sk.bootstrapping_key.glwe_size - 1) *
          sk.bootstrapping_key.polynomial_size) 0 ++
        List.replicate sk.bootstrapping_key.polynomial_size
          TfheBoolean.PLAINTEXT_TRUE) ++
        (TfheBoolean.Memory.grownBuffer m
          (sk.bootstrapping_key.glwe_size *
              sk.bootstrapping_key.polynomial_size +
            (sk.bootstrapping_key.output_lwe_dimension + 1))).drop
          (sk.bootstrapping_key.glwe_size *
            sk.bootstrapping_key.polynomial_size) := rfl
  have e2 : (m.as_buffers sk).2.2 =
      ((TfheBoolean.Memory.grownBuffer m
          (sk.bootstrapping_key.glwe_size *
              sk.bootstrapping_key.polynomial_size +
            (sk.bootstrapping_key.output_lwe_dimension + 1))).drop
        (sk.bootstrapping_key.glwe_size *
          sk.bootstrapping_key.polynomial_size)).take
        (sk.bootstrapping_key.output_lwe_dimension + 1) := rfl
  refine ⟨haccl, rfl, ?_, ?_, ?_, ?_, ?_⟩
  · rw [e2, List.length_take, List.length_drop, hgl]
    omega
  · rw [e1]
    exact (List.take_left' haccl).symm
  · rw [e1, List.drop_left' haccl]
    exact e2
  · rw [e1, List.length_append, haccl, List.length_drop, hgl]
    omega
  · rw [e1, List.length_append, haccl, List.length_drop, hgl]
    omega

/-- Witness for C7 at a concrete memory and key (glwe_size 2,
polynomial_size 3, so 6 accumulator elements and 4 LWE elements). -/
theorem C7_as_buffers_spec_witness :
    ((TfheBoolean.Memory.as_buffers ⟨[7, 7]⟩
        ⟨⟨1, 2, 3, 1, 1, []⟩, ⟨1, 1, []⟩⟩).2.1).length = 6 ∧
    ((TfheBoolean.Memory.as_buffers ⟨[7, 7]⟩
        ⟨⟨1, 2, 3, 1, 1, []⟩, ⟨1, 1, []⟩⟩).2.2).length = 4 := by
  have h := C7_as_buffers_spec ⟨[7, 7]⟩ ⟨⟨1, 2, 3, 1, 1, []⟩, ⟨1, 1, []⟩⟩
    (by decide)
  exact ⟨h.1, h.2.2.1⟩

namespace Shortint

/-- getD at a valid index is getElem. -/
lemma getD_eq_getElem_of_lt {α : Type} (l : List α) (d : α) {i : Nat}
    (h : i < l.length) : l.getD i d = l.get ⟨i, h⟩ := by
  rw [List.getD_eq_getElem?_getD, List.getElem?_eq_getElem h]
  rfl

/-- getD of a mapped list at a valid index. -/
lemma getD_map_of_lt {α β : Type} (f : α → β) (l : List α) (d1 : β) (d2 : α)
    {i : Nat} (h : i < l.length) :
    (l.map f).getD i d1 = f (l.getD i d2) := by
  have h2 : i < (l.map f).length := by simpa using h
  rw [getD_eq_getElem_of_lt _ d1 h2, getD_eq_getElem_of_lt _ d2 h]
  simp

end Shortint

/-- C8: decompressing a compressed ciphertext preserves the degree,
noise level, moduli and PBS order exactly (only the raw LWE sample
changes representation); expanding a compact list of n ciphertexts
yields exactly n ciphertexts, each carrying the shared metadata and
each built from one LWE-sized slice of the expanded buffer. -/
theorem C8_compressed_compact_metadata
    (c : Shortint.CompressedCiphertext) (l : Shortint.CompactCiphertextList)
    (hsz : l.ct_list.lwe_size ≠ 0) :
    (c.decompress.degree = c.degree ∧
     c.decompress.noise_level = c.noise_level ∧
     c.decompress.message_modulus = c.message_modulus ∧
     c.decompress.carry_modulus = c.carry_modulus ∧
     c.decompress.pbs_order = c.pbs_order) ∧
    l.expand.length = l.ct_list.count ∧
    (∀ ct ∈ l.expand, ct.degree = l.degree ∧
      ct.noise_level = l.noise_level ∧
      ct.message_modulus = l.message_modulus ∧
      ct.carry_modulus = l.carry_modulus ∧
      ct.pbs_order = l.pbs_order) ∧
    (∀ i, i < l.expand.length →
      (l.expand.getD i
          ⟨⟨[], 0⟩, ⟨0⟩, ⟨0⟩, 0, 0, Shortint.PBSOrder.KeyswitchBootstrap⟩).ct.mask ++
        [(l.expand.getD i
          ⟨⟨[], 0⟩, ⟨0⟩, ⟨0⟩, 0, 0, Shortint.PBSOrder.KeyswitchBootstrap⟩).ct.body] =
        ((Shortint.par_expand_lwe_compact_ciphertext_list l.ct_list).drop
          (i * l.ct_list.lwe_size)).take l.ct_list.lwe_size) := by
  have hexp : l.expand =
      (Shortint.chunksExact l.ct_list.lwe_size
        (Shortint.par_expand_lwe_compact_ciphertext_list l.ct_list)).map
        (fun lwe_data =>
          ({ ct := { mask := lwe_data.dropLast, body := lwe_data.getLastD 0 }
             degree := l.degree
             message_modulus := l.message_modulus
             carry_modulus := l.carry_modulus
             pbs_order := l.pbs_order
             noise_level := l.noise_level } : Shortint.Ciphertext)) := rfl
  have hbuf : (Shortint.par_expand_lwe_compact_ciphertext_list l.ct_list).length =
      l.ct_list.lwe_size * l.ct_list.count := Shortint.par_expand_length _
  have hchlen : (Shortint.chunksExact l.ct_list.lwe_size
      (Shortint.par_expand_lwe_compact_ciphertext_list l.ct_list)).length =
      l.ct_list.count := by
    rw [Shortint.chunksExact_length _ hsz, hbuf]
    exact Nat.mul_div_cancel_left _ (Nat.pos_of_ne_zero hsz)
  have hlen : l.expand.length = l.ct_list.count := by
    rw [hexp, List.length_map, hchlen]
  refine ⟨⟨rfl, rfl, rfl, rfl, rfl⟩, hlen, ?_, ?_⟩
  · intro ct hct
    rw [hexp, List.mem_map] at hct
    obtain ⟨chunk, _, rfl⟩ := hct
    exact ⟨rfl, rfl, rfl, rfl, rfl⟩
  · intro i hi
    have hi2 : i < (Shortint.chunksExact l.ct_list.lwe_size
        (Shortint.par_expand_lwe_compact_ciphertext_list l.ct_list)).length := by
      rw [hchlen]
      rw [hlen] at hi
      exact hi
    rw [hexp, Shortint.getD_map_of_lt _ _ _ [] hi2,
      Shortint.chunksExact_getD _ hsz _ i hi2]
    have hslice : (((Shortint.par_expand_lwe_compact_ciphertext_list
        l.ct_list).drop (i * l.ct_list.lwe_size)).take
        l.ct_list.lwe_size).length = l.ct_list.lwe_size := by
      rw [List.length_take, List.length_drop, hbuf]
      have h5 : i + 1 ≤ l.ct_list.count := by
        rw [hlen] at hi
        omega
      have h6 : l.ct_list.lwe_size * (i + 1) ≤
          l.ct_list.lwe_size * l.ct_list.count :=
        Nat.mul_le_mul_left _ h5
      have h7 : l.ct_list.lwe_size * (i + 1) =
          l.ct_list.lwe_size * i + l.ct_list.lwe_size := by ring
      have h8 : i * l.ct_list.lwe_size = l.ct_list.lwe_size * i :=
        Nat.mul_comm i _
      omega
    exact Shortint.dropLast_append_getLastD _
      (List.ne_nil_of_length_pos (by rw [hslice]; omega))

/-- Witness for C8 at a concrete compressed ciphertext and a compact
list of two LWE-size-2 ciphertexts. -/
theorem C8_compressed_compact_metadata_witness :
    (Shortint.CompressedCiphertext.decompress
        ⟨⟨3, 2, 5⟩, ⟨1⟩, 4, 4, Shortint.PBSOrder.KeyswitchBootstrap, ⟨1⟩⟩).degree =
      ⟨1⟩ ∧
    (Shortint.CompactCiphertextList.expand
        ⟨⟨[1, 2, 3, 4], 2, 2⟩, ⟨1⟩, 4, 4,
          Shortint.PBSOrder.KeyswitchBootstrap, ⟨1⟩⟩).length = 2 := by
  have h := C8_compressed_compact_metadata
    ⟨⟨3, 2, 5⟩, ⟨1⟩, 4, 4, Shortint.PBSOrder.KeyswitchBootstrap, ⟨1⟩⟩
    ⟨⟨[1, 2, 3, 4], 2, 2⟩, ⟨1⟩, 4, 4,
      Shortint.PBSOrder.KeyswitchBootstrap, ⟨1⟩⟩ (by decide)
  exact ⟨h.1.1, h.2.1⟩

/-- C9: the server-key serialization round trip succeeds and
reconstructs both sub-keys exactly, and any input that is not a
canonical serialization (in particular truncated or corrupt input) is
rejected with a structured decoding error - deserialization is a total
function into a result type and never panics. -/
theorem C9_serverkey_serialization (sk : TfheBoolean.ServerKey) :
    TfheBoolean.ServerKey.deserialize sk.serialize = Except.ok sk ∧
    ∀ bs : List Nat, (∀ k : TfheBoolean.ServerKey, bs ≠ k.serialize) →
      ∃ e, TfheBoolean.ServerKey.deserialize bs = Except.error e := by
  refine ⟨TfheBoolean.serialize_roundtrip sk, ?_⟩
  intro bs hbs
  cases hres : TfheBoolean.ServerKey.deserialize bs with
  | error e => exact ⟨e, rfl⟩
  | ok k => exact absurd (TfheBoolean.deserialize_ok_eq hres) (hbs k)

/-- Witness for C9 at a concrete server key and the (non-canonical)
empty input. -/
theorem C9_serverkey_serialization_witness :
    TfheBoolean.ServerKey.deserialize
        (TfheBoolean.ServerKey.serialize ⟨⟨1, 2, 3, 4, 5, [9]⟩, ⟨6, 7, [8]⟩⟩) =
      Except.ok ⟨⟨1, 2, 3, 4, 5, [9]⟩, ⟨6, 7, [8]⟩⟩ ∧
    ∃ e, TfheBoolean.ServerKey.deserialize [] = Except.error e := by
  have h := C9_serverkey_serialization ⟨⟨1, 2, 3, 4, 5, [9]⟩, ⟨6, 7, [8]⟩⟩
  refine ⟨h.1, h.2 [] ?_⟩
  intro k
  rw [TfheBoolean.ServerKey.serialize]
  simp [TfheBoolean.SerializableServerKey.encode]
